import Mathlib

/-!
Verification of the talisman `detector` package (detection_results.go) and of
the spec's claims about it.  Go values are shallowly embedded: strings stay
`String`, slices become `List`, the mutating methods on `DetectionResults`
become pure state-passing functions, and the reporting side effects (ignore
file, confirmation prompt, standard output) are made explicit in a record of
effects.
-/

namespace Talisman

/-- Go struct `Details` (a single finding): category, message, commits. -/
structure Details where
  category : String
  message : String
  commits : List String
  deriving DecidableEq, Repr

/-- Go struct `ResultsDetails` (one file record). -/
structure ResultsDetails where
  filename : String
  failureList : List Details
  warningList : List Details
  ignoreList : List Details
  deriving DecidableEq, Repr

/-- Go struct `FailureTypes` (the run summary counters). -/
structure FailureTypes where
  filecontent : Nat
  filesize : Nat
  filename : Nat
  warnings : Nat
  ignores : Nat
  deriving DecidableEq, Repr

/-- Go struct `ResultsSummary`. -/
structure ResultsSummary where
  types : FailureTypes
  deriving DecidableEq, Repr

/-- Go struct `DetectionResults`. -/
structure DetectionResults where
  summary : ResultsSummary
  results : List ResultsDetails
  deriving DecidableEq, Repr

/-- Go `NewDetectionResults`: all counters zero, no records. -/
def NewDetectionResults : DetectionResults :=
  ⟨⟨⟨0, 0, 0, 0, 0⟩⟩, []⟩

/-- Go `getResultDetailsForFilePath`: first record with the given filename,
nil (`none`) when absent. -/
def getResultDetailsForFilePath (r : DetectionResults) (fileName : String) :
    Option ResultsDetails :=
  r.results.find? fun rd => rd.filename == fileName

/-- Go `updateResultsSummary`: bump the counter matching the category string. -/
def updateResultsSummary (r : DetectionResults) (category : String) : DetectionResults :=
  if category = "filecontent" then
    { r with summary := ⟨{ r.summary.types with filecontent := r.summary.types.filecontent + 1 }⟩ }
  else if category = "filename" then
    { r with summary := ⟨{ r.summary.types with filename := r.summary.types.filename + 1 }⟩ }
  else if category = "filesize" then
    { r with summary := ⟨{ r.summary.types with filesize := r.summary.types.filesize + 1 }⟩ }
  else r

/-- The (category, message) identity test used by `Fail`/`Warn`
(`strings.Compare(...) == 0` on both fields). -/
def sameCatMsg (d : Details) (category message : String) : Bool :=
  d.category == category && d.message == message

/-- The body of the inner loop of Go `Fail`/`Warn`: a matching entry gets the
new commits appended, any other entry is untouched. -/
def appendCommits (category message : String) (commits : List String) (d : Details) : Details :=
  if sameCatMsg d category message then { d with commits := d.commits ++ commits } else d

/-- The per-record update performed by Go `Fail` on a record whose filename
matches: append commits to every (category, message) match, and append a fresh
entry when there was no match. -/
def updFailureList (fl : List Details) (category message : String) (commits : List String) :
    List Details :=
  if fl.any fun d => sameCatMsg d category message then
    fl.map (appendCommits category message commits)
  else
    fl.map (appendCommits category message commits) ++ [⟨category, message, commits⟩]

/-- Go `Fail`: update every record whose filename matches (appending commits to
an existing (category, message) entry or adding a new entry), append a fresh
record when the path is absent, then bump the summary counter. -/
def Fail (r : DetectionResults) (filePath category message : String) (commits : List String) :
    DetectionResults :=
  let isFilePresentInResults := r.results.any fun rd => rd.filename == filePath
  let updated := r.results.map fun rd =>
    if rd.filename == filePath then
      { rd with failureList := updFailureList rd.failureList category message commits }
    else rd
  let newResults :=
    if isFilePresentInResults then updated
    else updated ++ [⟨filePath, [⟨category, message, commits⟩], [], []⟩]
  updateResultsSummary { r with results := newResults } category

/-- Go `Warn`: same shape as `Fail` on the warning list; always bumps the
warnings counter. -/
def Warn (r : DetectionResults) (filePath category message : String) (commits : List String) :
    DetectionResults :=
  let isFilePresentInResults := r.results.any fun rd => rd.filename == filePath
  let updated := r.results.map fun rd =>
    if rd.filename == filePath then
      { rd with warningList := updFailureList rd.warningList category message commits }
    else rd
  let newResults :=
    if isFilePresentInResults then updated
    else updated ++ [⟨filePath, [], [⟨category, message, commits⟩], []⟩]
  { summary := ⟨{ r.summary.types with warnings := r.summary.types.warnings + 1 }⟩,
    results := newResults }

/-- The per-record update performed by Go `Ignore` on a matching record: add a
category-only entry unless the category is already present. -/
def updIgnoreList (il : List Details) (category : String) : List Details :=
  if il.any fun d => d.category == category then il
  else il ++ [⟨category, "", []⟩]

/-- Go `Ignore`: add a category-only entry to the matching record (or a fresh
record) unless the category is already present; always bumps the ignores
counter. -/
def Ignore (r : DetectionResults) (filePath category : String) : DetectionResults :=
  let isFilePresentInResults := r.results.any fun rd => rd.filename == filePath
  let updated := r.results.map fun rd =>
    if rd.filename == filePath then
      { rd with ignoreList := updIgnoreList rd.ignoreList category }
    else rd
  let newResults :=
    if isFilePresentInResults then updated
    else updated ++ [⟨filePath, [], [], [⟨category, "", []⟩]⟩]
  { summary := ⟨{ r.summary.types with ignores := r.summary.types.ignores + 1 }⟩,
    results := newResults }

/-- Go `HasFailures`: any of the three failure counters is positive. -/
def HasFailures (r : DetectionResults) : Bool :=
  decide (0 < r.summary.types.filesize) || decide (0 < r.summary.types.filename) ||
    decide (0 < r.summary.types.filecontent)

/-- Go `HasIgnores`. -/
def HasIgnores (r : DetectionResults) : Bool :=
  decide (0 < r.summary.types.ignores)

/-- Go `HasWarnings`. -/
def HasWarnings (r : DetectionResults) : Bool :=
  decide (0 < r.summary.types.warnings)

/-- Go `HasDetectionMessages`. -/
def HasDetectionMessages (r : DetectionResults) : Bool :=
  HasWarnings r || HasFailures r || HasIgnores r

/-- Go `Successful`: no failures detected. -/
def Successful (r : DetectionResults) : Bool :=
  !(HasFailures r)

/-- Go `GetFailures`: the failure list for the path, or the empty list when the
path has no record. -/
def GetFailures (r : DetectionResults) (fileName : String) : List Details :=
  match getResultDetailsForFilePath r fileName with
  | none => []
  | some rd => rd.failureList

/-- Observer: the warning list recorded for a path (empty when absent). -/
def warningListFor (r : DetectionResults) (fileName : String) : List Details :=
  match getResultDetailsForFilePath r fileName with
  | none => []
  | some rd => rd.warningList

/-- Observer: the ignore list recorded for a path (empty when absent). -/
def ignoreListFor (r : DetectionResults) (fileName : String) : List Details :=
  match getResultDetailsForFilePath r fileName with
  | none => []
  | some rd => rd.ignoreList

/-- The message rewrite in Go `ReportFileFailures`/`ReportFileWarnings`: a
message longer than 150 characters gets a line break inserted at offset 150. -/
def splitLongMessage (m : String) : String :=
  if 150 < m.length then
    String.mk (m.data.take 150) ++ "\n" ++ String.mk (m.data.drop 150)
  else m

/-- Go `ReportFileFailures`: dereferences the record for the path (a nil
dereference, i.e. `none`, when the path has no record) and folds its failure
list into (path, message) rows. -/
def ReportFileFailures (r : DetectionResults) (filePath : String) :
    Option (List (List String)) :=
  (getResultDetailsForFilePath r filePath).map fun rd =>
    if 0 < rd.failureList.length then
      rd.failureList.foldl (fun data d => data ++ [[filePath, splitLongMessage d.message]]) []
    else []

/-- Go `ReportFileWarnings`: same as `ReportFileFailures` on the warning list. -/
def ReportFileWarnings (r : DetectionResults) (filePath : String) :
    Option (List (List String)) :=
  (getResultDetailsForFilePath r filePath).map fun rd =>
    if 0 < rd.warningList.length then
      rd.warningList.foldl (fun data d => data ++ [[filePath, splitLongMessage d.message]]) []
    else []

/-- One proposed suppression entry (`FileIgnoreConfig`, declared outside this
package; fields as used here: filename, checksum, ignore-detector names). -/
structure FileIgnoreConfig where
  fileName : String
  checksum : String
  ignoreDetectors : List String
  deriving DecidableEq, Repr

/-- The suppression-config document root (`TalismanRCIgnore`), as built here:
a list of `FileIgnoreConfig` entries. -/
structure TalismanRCIgnore where
  fileIgnoreConfig : List FileIgnoreConfig
  deriving DecidableEq, Repr

/-- The confirmation collaborator plus the interactive flag
(`prompt.PromptContext`); `answers i` is the collaborator's reply to the i-th
prompt of the run. -/
structure PromptContext where
  interactive : Bool
  answers : Nat → Bool

/-- The observable effects of `Report`: the ignore file's content afterwards,
whether the ignore file was opened, how many times the confirmation
collaborator was invoked, and what was printed. -/
structure ReportEffects where
  fileContent : String
  fileOpened : Bool
  confirmCalls : Nat
  stdout : List String
  deriving Repr

/-- Modelled from the spec: `utility.UniqueItems` is not among the sources;
the spec asks for the set of distinct failing/ignored paths, so duplicates are
dropped keeping first occurrences. -/
def uniqueItems (xs : List String) : List String :=
  xs.foldl (fun acc x => if x ∈ acc then acc else acc ++ [x]) []

/-- The file paths `Report` collects: every record with a failure or an ignore,
deduplicated. -/
def failureIgnorePaths (r : DetectionResults) : List String :=
  uniqueItems
    ((r.results.filter fun rd =>
        0 < rd.failureList.length || 0 < rd.ignoreList.length).map fun rd => rd.filename)

/-- The candidate suppression entries built by Go `suggestTalismanRC`:
one `FileIgnoreConfig` per path, with the path's checksum and no excluded
detectors.  The checksum function (`utility.CollectiveSHA256Hash`, outside this
package) is a parameter. -/
def candidateEntriesFor (hash : String → String) (filePaths : List String) :
    List FileIgnoreConfig :=
  filePaths.map fun p => ⟨p, hash p, []⟩

/-- Go `getUserConfirmation`: ask the collaborator about each entry in order,
keep the confirmed ones. -/
def getUserConfirmation : List FileIgnoreConfig → (Nat → Bool) → List FileIgnoreConfig
  | [], _ => []
  | c :: cs, ans =>
    if ans 0 then c :: getUserConfirmation cs (fun n => ans (n + 1))
    else getUserConfirmation cs (fun n => ans (n + 1))

/-- Go `addToTalismanIgnoreFile`: when at least one entry was kept, marshal one
document and append its bytes to the ignore file (opened append/create);
otherwise the file is never opened.  The serializer (`yaml.Marshal`, outside
this package) is the parameter `mRC`. -/
def addToTalismanIgnoreFile (mRC : TalismanRCIgnore → String)
    (entriesToAdd : List FileIgnoreConfig) (fileContent : String) : String × Bool :=
  if 0 < entriesToAdd.length then (fileContent ++ mRC ⟨entriesToAdd⟩, true)
  else (fileContent, false)

/-- Go `suggestTalismanRC`: build the candidate entries; in interactive mode
print each entry (`confirm` does) and ask the collaborator once per entry, then
append the confirmed ones to the ignore file; in non-interactive mode print the
candidate document and touch nothing. -/
def suggestTalismanRC (hash : String → String) (mRC : TalismanRCIgnore → String)
    (mCfg : FileIgnoreConfig → String) (filePaths : List String) (pc : PromptContext)
    (fileContent : String) : ReportEffects :=
  let entriesToAdd := candidateEntriesFor hash filePaths
  if pc.interactive then
    let confirmedEntries := getUserConfirmation entriesToAdd pc.answers
    let fileAfter := addToTalismanIgnoreFile mRC confirmedEntries fileContent
    ⟨fileAfter.1, fileAfter.2, entriesToAdd.length, entriesToAdd.map mCfg⟩
  else
    ⟨fileContent, false, 0, [mRC ⟨entriesToAdd⟩]⟩

/-- Go `Report`: when there are failures, render the table and run the
ignore-suggestion workflow on the distinct failing/ignored paths; otherwise
perform no effect on the ignore file or the collaborator. -/
def Report (r : DetectionResults) (fileContent : String) (pc : PromptContext)
    (hash : String → String) (mRC : TalismanRCIgnore → String)
    (mCfg : FileIgnoreConfig → String) : ReportEffects :=
  if HasFailures r then
    suggestTalismanRC hash mRC mCfg (failureIgnorePaths r) pc fileContent
  else
    ⟨fileContent, false, 0, []⟩

/-- Modelled from the spec: the base64 alphabet of the base64 shape classifier
(letters, digits, plus, slash, optional padding). -/
def isBase64Char (c : Char) : Bool :=
  c.isAlphanum || c == '+' || c == '/' || c == '='

/-- Modelled from the spec: hex digits for the hex shape classifier. -/
def isHexDigitChar (c : Char) : Bool :=
  c.isDigit || (65 ≤ c.toNat && c.toNat ≤ 70) || (97 ≤ c.toNat && c.toNat ≤ 102)

/-- Occurrence counts of the distinct symbols of a token. -/
def symbolCounts (cs : List Char) : List Nat :=
  cs.dedup.map fun c => cs.count c

/-- Modelled from the spec: the Shannon-entropy gate.  With occurrence counts
k over n symbols, H = (1/n) * log2 (n^n / prod k^k); the gate H > t/10 bits is
equivalent to the exact integer test prod k^(10k) * 2^(t*n) < n^(10n), which is
what is computed here. -/
def entropyExceedsTenthBits (t : Nat) (cs : List Char) : Bool :=
  let n := cs.length
  decide ((symbolCounts cs).foldl (fun acc k => acc * k ^ (10 * k)) 1 * 2 ^ (t * n) < n ^ (10 * n))

/-- Modelled from the spec: base64 shape classifier with entropy gate.  The
maximal runs of base64-alphabet characters inside the token are candidates; a
candidate fires when it reaches the minimum length threshold (20) and passes
the entropy gate.  The tuned threshold is 4.6 bits: the spec requires the gate
to pass AWS-style secret keys and JWTs (entropy above 4.66 bits) while
rejecting long camel-case identifiers (entropy below 4.55 bits). -/
def hasBase64Secret (w : List Char) : Bool :=
  ((w.splitOnP fun c => !isBase64Char c).filter fun run => !run.isEmpty).any fun run =>
    decide (20 ≤ run.length) && entropyExceedsTenthBits 46 run

/-- Modelled from the spec: hex shape classifier with entropy gate — the token
is drawn from hex digits only, has even length at or above the minimum length
threshold (16), and passes a 2.5-bit entropy gate. -/
def hasHexSecret (w : List Char) : Bool :=
  !w.isEmpty && w.all isHexDigitChar && decide (w.length % 2 = 0) &&
    decide (16 ≤ w.length) && entropyExceedsTenthBits 25 w

/-- Modelled from the spec: credit-card shape classifier — a digit sequence of
a known card-number length whose leading digits match a known issuer pattern. -/
def looksLikeCardNumber (w : List Char) : Bool :=
  w.all Char.isDigit && decide (12 ≤ w.length) && decide (w.length ≤ 19) &&
    (match w with
     | '4' :: _ => true
     | '5' :: _ => true
     | '6' :: _ => true
     | '3' :: '4' :: _ => true
     | '3' :: '7' :: _ => true
     | _ => false)

/-- Modelled from the spec: the findings one token produces, each with the
mandated message shape for its kind. -/
def wordMessages (w : List Char) : List String :=
  (if hasBase64Secret w then
     ["Expected file to not to contain base64 encoded texts such as: " ++ String.mk w]
   else []) ++
  (if hasHexSecret w then
     ["Expected file to not to contain hex encoded texts such as: " ++ String.mk w]
   else []) ++
  (if looksLikeCardNumber w then
     ["Expected file to not to contain credit card numbers such as: " ++ String.mk w]
   else [])

/-- Modelled from the spec: tokenization — the content split on whitespace. -/
def contentTokens (content : String) : List (List Char) :=
  (content.data.splitOnP Char.isWhitespace).filter fun w => !w.isEmpty

/-- Modelled from the spec: the content detector (`FileContentDetector`, whose
source is not among the files here) run with an empty suppression config on one
addition's content — the messages of all findings, in token order. -/
def fileContentDetections (content : String) : List String :=
  ((contentTokens content).map wordMessages).flatten

/-- Modelled from the spec: the detector reports each surviving match as one
`Fail` call with category filecontent on the addition's path. -/
def runContentDetector (path content : String) (r : DetectionResults) : DetectionResults :=
  (fileContentDetections content).foldl (fun acc msg => Fail acc path "filecontent" msg []) r

/-- One mutation of a `DetectionResults` (the only three entry points). -/
inductive Op where
  | fail (path category message : String) (commits : List String)
  | warn (path category message : String) (commits : List String)
  | ignore (path category : String)
  deriving DecidableEq, Repr

/-- Apply one mutation. -/
def applyOp (r : DetectionResults) : Op → DetectionResults
  | .fail p c m cs => Fail r p c m cs
  | .warn p c m cs => Warn r p c m cs
  | .ignore p c => Ignore r p c

/-- Apply a call sequence left to right. -/
def runOps (r : DetectionResults) (ops : List Op) : DetectionResults :=
  ops.foldl applyOp r

/-- The path an operation touches. -/
def opPath : Op → String
  | .fail p _ _ _ => p
  | .warn p _ _ _ => p
  | .ignore p _ => p

/-- A category whose `Fail` counts as a failure in the run summary. -/
def flaggedCategory (c : String) : Prop :=
  c = "filecontent" ∨ c = "filename" ∨ c = "filesize"

/-- `Fail` with a counted category, as a predicate on operations. -/
def IsFlaggedFail : Op → Prop
  | .fail _ c _ _ => flaggedCategory c
  | .warn _ _ _ _ => False
  | .ignore _ _ => False

/-- Boolean version of `IsFlaggedFail`. -/
def isFlaggedFailB : Op → Bool
  | .fail _ c _ _ => c == "filecontent" || c == "filename" || c == "filesize"
  | .warn _ _ _ _ => false
  | .ignore _ _ => false

/-- Pairwise distinct (category, message) keys in a finding list. -/
def UniqueCatMsg (ds : List Details) : Prop :=
  ds.Pairwise fun a b => ¬(a.category = b.category ∧ a.message = b.message)

/-- Pairwise distinct categories in a finding list. -/
def UniqueCat (ds : List Details) : Prop :=
  ds.Pairwise fun a b => a.category ≠ b.category

/-- The structural invariant of `DetectionResults`: at most one record per
path; (category, message)-unique failures and warnings; category-unique
ignores. -/
def Inv (r : DetectionResults) : Prop :=
  r.results.Pairwise (fun a b => a.filename ≠ b.filename) ∧
  ∀ rd ∈ r.results, UniqueCatMsg rd.failureList ∧ UniqueCatMsg rd.warningList ∧
    UniqueCat rd.ignoreList

theorem updateResultsSummary_results (r : DetectionResults) (c : String) :
    (updateResultsSummary r c).results = r.results := by
  unfold updateResultsSummary
  split_ifs <;> rfl

/-- The common record-lookup shape of `Fail`/`Warn`/`Ignore`: after updating
every matching record with `g` (or appending `newRec` when the path is
absent), looking the path up finds the updated first match (or `newRec`). -/
theorem find?_update_results (rs : List ResultsDetails) (p : String)
    (g : ResultsDetails → ResultsDetails) (newRec : ResultsDetails)
    (hg : ∀ rd, (g rd).filename = rd.filename) (hnew : newRec.filename = p) :
    (if rs.any (fun rd => rd.filename == p) then
        rs.map fun rd => if rd.filename == p then g rd else rd
      else (rs.map fun rd => if rd.filename == p then g rd else rd) ++ [newRec]).find?
        (fun rd => rd.filename == p) =
      (match rs.find? (fun rd => rd.filename == p) with
       | none => some newRec
       | some rd => some (g rd)) := by
  have hcomp : ((fun rd : ResultsDetails => rd.filename == p) ∘
      fun rd => if rd.filename == p then g rd else rd) =
      fun rd : ResultsDetails => rd.filename == p := by
    funext rd
    cases h : rd.filename == p with
    | false => simp only [Function.comp_apply, h, Bool.false_eq_true, if_false]
    | true =>
      simp only [Function.comp_apply, h, if_true]
      rw [show (g rd).filename = rd.filename from hg rd, h]
  by_cases hp : rs.any (fun rd => rd.filename == p) = true
  · simp only [hp, if_true]
    rw [List.find?_map, hcomp]
    cases hfind : rs.find? (fun rd => rd.filename == p) with
    | none =>
      exact absurd (List.any_eq_true.mp hp)
        (by rintro ⟨x, hx, hqx⟩; exact (List.find?_eq_none.mp hfind) x hx hqx)
    | some rd0 =>
      have hq : rd0.filename = p := by simpa using List.find?_some hfind
      simp [hq]
  · have hp' : rs.any (fun rd => rd.filename == p) = false := by
      revert hp; cases rs.any fun rd => rd.filename == p <;> simp
    have hall := List.any_eq_false.mp hp'
    have hmap : (rs.map fun rd => if rd.filename == p then g rd else rd) = rs := by
      have hid : ∀ a ∈ rs, (if a.filename == p then g a else a) = id a := by
        intro a ha
        have h := hall a ha
        simp only [Bool.not_eq_true] at h
        simp [h]
      rw [List.map_congr_left hid, List.map_id]
    have hfind : rs.find? (fun rd => rd.filename == p) = none :=
      List.find?_eq_none.mpr fun x hx => by simpa using hall x hx
    rw [if_neg hp, hmap, List.find?_append, hfind]
    simp [hnew]

/-- `Fail` acts on the failure list observed for the failing path exactly as
`updFailureList`. -/
theorem getFailures_fail (r : DetectionResults) (p c m : String) (cs : List String) :
    GetFailures (Fail r p c m cs) p = updFailureList (GetFailures r p) c m cs := by
  have h := find?_update_results r.results p
      (fun rd => { rd with failureList := updFailureList rd.failureList c m cs })
      ⟨p, [⟨c, m, cs⟩], [], []⟩ (fun rd => rfl) rfl
  simp only [GetFailures, getResultDetailsForFilePath, Fail, updateResultsSummary_results]
  rw [h]
  cases hf : r.results.find? fun rd => rd.filename == p with
  | none => simp [updFailureList]
  | some rd0 => rfl

/-- `Warn` acts on the warning list observed for the path exactly as
`updFailureList`. -/
theorem warningListFor_warn (r : DetectionResults) (p c m : String) (cs : List String) :
    warningListFor (Warn r p c m cs) p = updFailureList (warningListFor r p) c m cs := by
  have h := find?_update_results r.results p
      (fun rd => { rd with warningList := updFailureList rd.warningList c m cs })
      ⟨p, [], [⟨c, m, cs⟩], []⟩ (fun rd => rfl) rfl
  simp only [warningListFor, getResultDetailsForFilePath, Warn]
  rw [h]
  cases hf : r.results.find? fun rd => rd.filename == p with
  | none => simp [updFailureList]
  | some rd0 => rfl

/-- `Ignore` acts on the ignore list observed for the path exactly as
`updIgnoreList`. -/
theorem ignoreListFor_ignore (r : DetectionResults) (p c : String) :
    ignoreListFor (Ignore r p c) p = updIgnoreList (ignoreListFor r p) c := by
  have h := find?_update_results r.results p
      (fun rd => { rd with ignoreList := updIgnoreList rd.ignoreList c })
      ⟨p, [], [], [⟨c, "", []⟩]⟩ (fun rd => rfl) rfl
  simp only [ignoreListFor, getResultDetailsForFilePath, Ignore]
  rw [h]
  cases hf : r.results.find? fun rd => rd.filename == p with
  | none => simp [updIgnoreList]
  | some rd0 => rfl

/-- C5: every `Ignore` call increments the ignores counter, while the path's
ignore list gains a category-only finding (empty message, empty commits) only
when the category is not yet present for that path. -/
theorem ignore_counts_calls_and_keeps_list_unique (r : DetectionResults) (p c : String) :
    (Ignore r p c).summary.types.ignores = r.summary.types.ignores + 1 ∧
    ignoreListFor (Ignore r p c) p =
      (if (ignoreListFor r p).any fun d => d.category == c then ignoreListFor r p
       else ignoreListFor r p ++ [⟨c, "", []⟩]) := by
  refine ⟨rfl, ?_⟩
  rw [ignoreListFor_ignore]
  rfl

/-- C2: two `Fail` calls with the same (path, category, message) on a state
not yet holding that finding leave exactly one finding with that category and
message on the path, whose commits are the two commit lists concatenated in
call order, and append nothing else to the path's failure list. -/
theorem fail_twice_concatenates_commits (r : DetectionResults) (p c m : String)
    (c1 c2 : List String)
    (h : (GetFailures r p).filter (fun d => sameCatMsg d c m) = []) :
    GetFailures (Fail (Fail r p c m c1) p c m c2) p =
      GetFailures r p ++ [⟨c, m, c1 ++ c2⟩] ∧
    (GetFailures (Fail (Fail r p c m c1) p c m c2) p).filter (fun d => sameCatMsg d c m) =
      [⟨c, m, c1 ++ c2⟩] := by
  have hall : ∀ d ∈ GetFailures r p, sameCatMsg d c m = false := by
    intro d hd
    simpa using List.filter_eq_nil_iff.mp h d hd
  have hany : ((GetFailures r p).any fun d => sameCatMsg d c m) = false :=
    List.any_eq_false.mpr fun d hd => by simp [hall d hd]
  have hmapid : ∀ cx : List String,
      (GetFailures r p).map (appendCommits c m cx) = GetFailures r p := by
    intro cx
    have hid : ∀ d ∈ GetFailures r p, appendCommits c m cx d = id d := by
      intro d hd; simp [appendCommits, hall d hd]
    rw [List.map_congr_left hid, List.map_id]
  have hsame : sameCatMsg ⟨c, m, c1⟩ c m = true := by simp [sameCatMsg]
  have hupd1 : updFailureList (GetFailures r p) c m c1 =
      GetFailures r p ++ [⟨c, m, c1⟩] := by
    rw [updFailureList, if_neg (by simp [hany]), hmapid]
  have hupd2 : updFailureList (GetFailures r p ++ [⟨c, m, c1⟩]) c m c2 =
      GetFailures r p ++ [⟨c, m, c1 ++ c2⟩] := by
    rw [updFailureList,
      if_pos (List.any_eq_true.mpr ⟨⟨c, m, c1⟩, by simp, hsame⟩),
      List.map_append, hmapid]
    simp [appendCommits, hsame]
  have hmain : GetFailures (Fail (Fail r p c m c1) p c m c2) p =
      GetFailures r p ++ [⟨c, m, c1 ++ c2⟩] := by
    rw [getFailures_fail, getFailures_fail, hupd1, hupd2]
  refine ⟨hmain, ?_⟩
  rw [hmain, List.filter_append, h]
  simp [sameCatMsg]

/-- Concrete run of the C2 theorem: from a fresh state, two identical `Fail`
calls yield the single finding with the concatenated commit lists. -/
theorem fail_twice_concatenates_commits_witness :
    GetFailures
        (Fail (Fail NewDetectionResults "a" "filecontent" "m" ["x"]) "a" "filecontent" "m" ["y"])
        "a" =
      [⟨"filecontent", "m", ["x", "y"]⟩] := by
  have h := fail_twice_concatenates_commits NewDetectionResults "a" "filecontent" "m"
    ["x"] ["y"] (by decide)
  have h1 := h.1
  rw [show GetFailures NewDetectionResults "a" = [] from rfl] at h1
  simpa using h1

theorem hasFailures_updateResultsSummary (r : DetectionResults) (c : String) :
    HasFailures (updateResultsSummary r c) =
      (HasFailures r || (c == "filecontent" || c == "filename" || c == "filesize")) := by
  unfold updateResultsSummary HasFailures
  split_ifs with h1 h2 h3 <;> simp_all

theorem hasFailures_fail (r : DetectionResults) (p c m : String) (cs : List String) :
    HasFailures (Fail r p c m cs) =
      (HasFailures r || (c == "filecontent" || c == "filename" || c == "filesize")) := by
  simp only [Fail]
  rw [hasFailures_updateResultsSummary]
  rfl

theorem hasFailures_warn (r : DetectionResults) (p c m : String) (cs : List String) :
    HasFailures (Warn r p c m cs) = HasFailures r := rfl

theorem hasFailures_ignore (r : DetectionResults) (p c : String) :
    HasFailures (Ignore r p c) = HasFailures r := rfl

theorem hasFailures_applyOp (r : DetectionResults) (op : Op) :
    HasFailures (applyOp r op) = (HasFailures r || isFlaggedFailB op) := by
  cases op with
  | fail p c m cs => simpa [applyOp, isFlaggedFailB] using hasFailures_fail r p c m cs
  | warn p c m cs => simp [applyOp, hasFailures_warn, isFlaggedFailB]
  | ignore p c => simp [applyOp, hasFailures_ignore, isFlaggedFailB]

theorem hasFailures_runOps (r : DetectionResults) (ops : List Op) :
    HasFailures (runOps r ops) = (HasFailures r || ops.any isFlaggedFailB) := by
  induction ops generalizing r with
  | nil => simp [runOps]
  | cons op rest ih =>
    rw [runOps, List.foldl_cons,
      show List.foldl applyOp (applyOp r op) rest = runOps (applyOp r op) rest from rfl,
      ih, hasFailures_applyOp, List.any_cons, Bool.or_assoc]

theorem isFlaggedFailB_iff (op : Op) : isFlaggedFailB op = true ↔ IsFlaggedFail op := by
  cases op <;> simp [isFlaggedFailB, IsFlaggedFail, flaggedCategory, or_assoc]

/-- C1: over any call sequence on a fresh `DetectionResults`, `Successful`
returns false exactly when some `Fail` call used one of the categories
filecontent, filename, filesize; `Warn`, `Ignore` and other-category `Fail`
calls never falsify it. -/
theorem successful_false_iff_flagged_fail (ops : List Op) :
    Successful (runOps NewDetectionResults ops) = false ↔ ∃ op ∈ ops, IsFlaggedFail op := by
  rw [Successful, hasFailures_runOps,
    show HasFailures NewDetectionResults = false from rfl, Bool.false_or]
  constructor
  · intro hfalse
    have hany : ops.any isFlaggedFailB = true := by
      revert hfalse; cases ops.any isFlaggedFailB <;> simp
    rcases List.any_eq_true.mp hany with ⟨op, hmem, hflag⟩
    exact ⟨op, hmem, (isFlaggedFailB_iff op).mp hflag⟩
  · rintro ⟨op, hmem, hflag⟩
    have hany : ops.any isFlaggedFailB = true :=
      List.any_eq_true.mpr ⟨op, hmem, (isFlaggedFailB_iff op).mpr hflag⟩
    simp [hany]

/-- Concrete run of the C1 theorem: one flagged `Fail` among `Warn`/`Ignore`
calls falsifies `Successful`. -/
theorem successful_false_iff_flagged_fail_witness :
    Successful (runOps NewDetectionResults
      [Op.warn "w" "filecontent" "m" [], Op.fail "a" "filename" "m" [],
       Op.ignore "i" "filecontent"]) = false := by
  exact (successful_false_iff_flagged_fail _).mpr
    ⟨Op.fail "a" "filename" "m" [], by simp, Or.inr (Or.inl rfl)⟩

theorem find?_update_results_other (rs : List ResultsDetails) (p q0 : String)
    (g : ResultsDetails → ResultsDetails) (newRec : ResultsDetails)
    (hg : ∀ rd, (g rd).filename = rd.filename) (hnew : newRec.filename = q0) (hne : q0 ≠ p)
    (h : rs.find? (fun rd => rd.filename == p) = none) :
    (if rs.any (fun rd => rd.filename == q0) then
        rs.map fun rd => if rd.filename == q0 then g rd else rd
      else (rs.map fun rd => if rd.filename == q0 then g rd else rd) ++ [newRec]).find?
        (fun rd => rd.filename == p) = none := by
  have hcomp : ((fun rd : ResultsDetails => rd.filename == p) ∘
      fun rd => if rd.filename == q0 then g rd else rd) =
      fun rd : ResultsDetails => rd.filename == p := by
    funext rd
    cases hq : rd.filename == q0 with
    | false => simp only [Function.comp_apply, hq, Bool.false_eq_true, if_false]
    | true => simp only [Function.comp_apply, hq, if_true]; rw [hg rd]
  have hmapped : (rs.map fun rd => if rd.filename == q0 then g rd else rd).find?
      (fun rd => rd.filename == p) = none := by
    rw [List.find?_map, hcomp, h]
    rfl
  by_cases hp : rs.any (fun rd => rd.filename == q0) = true
  · rw [if_pos hp]; exact hmapped
  · rw [if_neg hp, List.find?_append, hmapped]
    simp [hnew, hne]

theorem getResultDetails_applyOp_none (r : DetectionResults) (op : Op) (p : String)
    (hne : opPath op ≠ p) (h : getResultDetailsForFilePath r p = none) :
    getResultDetailsForFilePath (applyOp r op) p = none := by
  cases op with
  | fail q0 c m cs =>
    simp only [applyOp, getResultDetailsForFilePath, Fail, updateResultsSummary_results]
    exact find?_update_results_other r.results p q0 _ _ (fun rd => rfl) rfl hne h
  | warn q0 c m cs =>
    simp only [applyOp, getResultDetailsForFilePath, Warn]
    exact find?_update_results_other r.results p q0 _ _ (fun rd => rfl) rfl hne h
  | ignore q0 c =>
    simp only [applyOp, getResultDetailsForFilePath, Ignore]
    exact find?_update_results_other r.results p q0 _ _ (fun rd => rfl) rfl hne h

theorem getResultDetails_runOps_none (ops : List Op) (r : DetectionResults) (p : String)
    (hne : ∀ op ∈ ops, opPath op ≠ p) (h : getResultDetailsForFilePath r p = none) :
    getResultDetailsForFilePath (runOps r ops) p = none := by
  induction ops generalizing r with
  | nil => exact h
  | cons op rest ih =>
    exact ih _ (fun o ho => hne o (List.mem_cons_of_mem _ ho))
      (getResultDetails_applyOp_none r op p (hne op (List.mem_cons_self _ _)) h)

/-- C7: for a path no call ever touched, `GetFailures` returns the empty list
(and no error): there is no record for it, and the nil case yields `[]`. -/
theorem getFailures_untouched_path (ops : List Op) (p : String)
    (h : ∀ op ∈ ops, opPath op ≠ p) :
    GetFailures (runOps NewDetectionResults ops) p = [] := by
  have hnone := getResultDetails_runOps_none ops NewDetectionResults p h rfl
  simp [GetFailures, hnone]

/-- Concrete run of the C7 theorem: a path other calls never touched reads
back as the empty failure list. -/
theorem getFailures_untouched_path_witness :
    GetFailures (runOps NewDetectionResults
      [Op.fail "a" "filecontent" "m" [], Op.warn "b" "c" "m" [], Op.ignore "d" "c"]) "z" =
      [] :=
  getFailures_untouched_path _ "z" (by decide)

/-- C10: for a path no call ever touched, `ReportFileFailures` and
`ReportFileWarnings` dereference the absent (nil) record — modelled as `none`,
the embedded image of the Go nil-pointer panic — unlike `GetFailures`, which
guards that case. -/
theorem reportFile_untouched_path_panics (ops : List Op) (p : String)
    (h : ∀ op ∈ ops, opPath op ≠ p) :
    ReportFileFailures (runOps NewDetectionResults ops) p = none ∧
    ReportFileWarnings (runOps NewDetectionResults ops) p = none := by
  have hnone := getResultDetails_runOps_none ops NewDetectionResults p h rfl
  constructor <;> simp [ReportFileFailures, ReportFileWarnings, hnone]

/-- Concrete run of the C10 theorem: reporting rows for an untouched path hits
the nil record. -/
theorem reportFile_untouched_path_panics_witness :
    ReportFileFailures (runOps NewDetectionResults [Op.fail "a" "filecontent" "m" []]) "b" =
      none ∧
    ReportFileWarnings (runOps NewDetectionResults [Op.fail "a" "filecontent" "m" []]) "b" =
      none :=
  reportFile_untouched_path_panics _ "b" (by decide)

theorem foldl_report_rows (p : String) (L : List Details) (acc : List (List String)) :
    L.foldl (fun data d => data ++ [[p, splitLongMessage d.message]]) acc =
      acc ++ (L.map fun d => [p, splitLongMessage d.message]) := by
  induction L generalizing acc with
  | nil => simp
  | cons d t ih => simp [List.foldl_cons, ih]

/-- C8: with a record present, `ReportFileFailures`/`ReportFileWarnings`
produce one (path, message) row per finding; a message over 150 characters is
rendered with a line break inserted at offset 150 and its tail preserved (the
two pieces reassemble to the original message), while a message of at most 150
characters is rendered unchanged. -/
theorem reportFile_rows (r : DetectionResults) (p : String) (rd : ResultsDetails)
    (h : getResultDetailsForFilePath r p = some rd) :
    ReportFileFailures r p =
      some (rd.failureList.map fun d => [p, splitLongMessage d.message]) ∧
    ReportFileWarnings r p =
      some (rd.warningList.map fun d => [p, splitLongMessage d.message]) ∧
    (∀ msg : String, msg.length ≤ 150 → splitLongMessage msg = msg) ∧
    (∀ msg : String, 150 < msg.length →
      splitLongMessage msg =
        String.mk (msg.data.take 150) ++ "\n" ++ String.mk (msg.data.drop 150) ∧
      String.mk (msg.data.take 150) ++ String.mk (msg.data.drop 150) = msg) := by
  refine ⟨?_, ?_, ?_, ?_⟩
  · rw [ReportFileFailures, h]
    by_cases hl : 0 < rd.failureList.length
    · simp [hl, foldl_report_rows]
    · have hnil : rd.failureList = [] := List.length_eq_zero.mp (by omega)
      simp [hnil]
  · rw [ReportFileWarnings, h]
    by_cases hl : 0 < rd.warningList.length
    · simp [hl, foldl_report_rows]
    · have hnil : rd.warningList = [] := List.length_eq_zero.mp (by omega)
      simp [hnil]
  · intro msg hle
    rw [splitLongMessage, if_neg (by omega)]
  · intro msg hgt
    refine ⟨by rw [splitLongMessage, if_pos hgt], ?_⟩
    cases msg with
    | mk data =>
      rw [show String.mk (data.take 150) ++ String.mk (data.drop 150) =
        String.mk (data.take 150 ++ data.drop 150) from rfl, List.take_append_drop]

/-- Concrete run of the C8 theorem: one failure yields one (path, message)
row, the short message unchanged. -/
theorem reportFile_rows_witness :
    ReportFileFailures (Fail NewDetectionResults "f" "filecontent" "boom" []) "f" =
      some [["f", "boom"]] := by
  have h := reportFile_rows (Fail NewDetectionResults "f" "filecontent" "boom" []) "f"
    ⟨"f", [⟨"filecontent", "boom", []⟩], [], []⟩ (by decide)
  rw [h.1]
  decide

theorem appendCommits_category (c m : String) (cs : List String) (d : Details) :
    (appendCommits c m cs d).category = d.category := by
  unfold appendCommits; split <;> rfl

theorem appendCommits_message (c m : String) (cs : List String) (d : Details) :
    (appendCommits c m cs d).message = d.message := by
  unfold appendCommits; split <;> rfl

theorem uniqueCatMsg_updFailureList (L : List Details) (c m : String) (cs : List String)
    (h : UniqueCatMsg L) : UniqueCatMsg (updFailureList L c m cs) := by
  have hmap : UniqueCatMsg (L.map (appendCommits c m cs)) :=
    h.map _ (fun a b hab => by
      simpa [appendCommits_category, appendCommits_message] using hab)
  unfold updFailureList
  by_cases hany : (L.any fun d => sameCatMsg d c m) = true
  · rw [if_pos hany]; exact hmap
  · rw [if_neg hany]
    have hanyf : (L.any fun d => sameCatMsg d c m) = false := by
      revert hany; cases L.any fun d => sameCatMsg d c m <;> simp
    have hall := List.any_eq_false.mp hanyf
    refine List.pairwise_append.mpr ⟨hmap, List.pairwise_singleton _ _, ?_⟩
    intro a ha b hb
    simp only [List.mem_singleton] at hb; subst hb
    rcases List.mem_map.mp ha with ⟨d, hd, rfl⟩
    simp only [appendCommits_category, appendCommits_message]
    rintro ⟨h1, h2⟩
    exact (hall d hd) (by simp [sameCatMsg, h1, h2])

theorem uniqueCat_updIgnoreList (L : List Details) (c : String)
    (h : UniqueCat L) : UniqueCat (updIgnoreList L c) := by
  unfold updIgnoreList
  by_cases hany : (L.any fun d => d.category == c) = true
  · rwa [if_pos hany]
  · rw [if_neg hany]
    have hanyf : (L.any fun d => d.category == c) = false := by
      revert hany; cases L.any fun d => d.category == c <;> simp
    have hall := List.any_eq_false.mp hanyf
    refine List.pairwise_append.mpr ⟨h, List.pairwise_singleton _ _, ?_⟩
    intro a ha b hb
    simp only [List.mem_singleton] at hb; subst hb
    intro hcontra
    exact (hall a ha) (by simp [hcontra])

theorem pairwise_filenames_update (rs : List ResultsDetails) (p : String)
    (g : ResultsDetails → ResultsDetails) (newRec : ResultsDetails)
    (hg : ∀ rd, (g rd).filename = rd.filename) (hnew : newRec.filename = p)
    (hpair : rs.Pairwise fun a b => a.filename ≠ b.filename) :
    (if rs.any (fun rd => rd.filename == p) then
        rs.map fun rd => if rd.filename == p then g rd else rd
      else (rs.map fun rd => if rd.filename == p then g rd else rd) ++ [newRec]).Pairwise
      (fun a b => a.filename ≠ b.filename) := by
  have hf : ∀ rd : ResultsDetails,
      (if rd.filename == p then g rd else rd).filename = rd.filename := by
    intro rd; split
    · exact hg rd
    · rfl
  have hmapPair : (rs.map fun rd => if rd.filename == p then g rd else rd).Pairwise
      (fun a b => a.filename ≠ b.filename) :=
    hpair.map _ (fun a b hab => by rw [hf a, hf b]; exact hab)
  by_cases hp : rs.any (fun rd => rd.filename == p) = true
  · rwa [if_pos hp]
  · rw [if_neg hp]
    have hanyf : (rs.any fun rd => rd.filename == p) = false := by
      revert hp; cases rs.any fun rd => rd.filename == p <;> simp
    have hall := List.any_eq_false.mp hanyf
    refine List.pairwise_append.mpr ⟨hmapPair, List.pairwise_singleton _ _, ?_⟩
    intro a ha b hb
    simp only [List.mem_singleton] at hb; subst hb
    rcases List.mem_map.mp ha with ⟨rd, hrd, rfl⟩
    rw [hf rd, hnew]
    intro hcontra
    exact (hall rd hrd) (by simp [hcontra])

theorem mem_results_update (rs : List ResultsDetails) (p : String)
    (g : ResultsDetails → ResultsDetails) (newRec : ResultsDetails)
    (x : ResultsDetails)
    (hx : x ∈ (if rs.any (fun rd => rd.filename == p) then
        rs.map fun rd => if rd.filename == p then g rd else rd
      else (rs.map fun rd => if rd.filename == p then g rd else rd) ++ [newRec])) :
    (∃ rd ∈ rs, x = g rd) ∨ (∃ rd ∈ rs, x = rd) ∨ x = newRec := by
  have hmap : x ∈ (rs.map fun rd => if rd.filename == p then g rd else rd) →
      (∃ rd ∈ rs, x = g rd) ∨ (∃ rd ∈ rs, x = rd) ∨ x = newRec := by
    intro hmem
    rcases List.mem_map.mp hmem with ⟨rd, hrd, heq⟩
    by_cases hb : (rd.filename == p) = true
    · rw [if_pos hb] at heq
      exact Or.inl ⟨rd, hrd, heq.symm⟩
    · rw [if_neg hb] at heq
      exact Or.inr (Or.inl ⟨rd, hrd, heq.symm⟩)
  by_cases hp : rs.any (fun rd => rd.filename == p) = true
  · rw [if_pos hp] at hx
    exact hmap hx
  · rw [if_neg hp] at hx
    rcases List.mem_append.mp hx with hmem | hmem
    · exact hmap hmem
    · simp only [List.mem_singleton] at hmem
      exact Or.inr (Or.inr hmem)

theorem recordInv_of_mem_update (rs : List ResultsDetails) (p : String)
    (g : ResultsDetails → ResultsDetails) (newRec : ResultsDetails)
    (P : ResultsDetails → Prop)
    (hP : ∀ rd ∈ rs, P rd) (hPg : ∀ rd ∈ rs, P rd → P (g rd)) (hPnew : P newRec) :
    ∀ x ∈ (if rs.any (fun rd => rd.filename == p) then
        rs.map fun rd => if rd.filename == p then g rd else rd
      else (rs.map fun rd => if rd.filename == p then g rd else rd) ++ [newRec]), P x := by
  intro x hx
  rcases mem_results_update rs p g newRec x hx with ⟨rd, hrd, hEq⟩ | ⟨rd, hrd, hEq⟩ | hEq
  · rw [hEq]; exact hPg rd hrd (hP rd hrd)
  · rw [hEq]; exact hP rd hrd
  · rw [hEq]; exact hPnew

theorem inv_fail (r : DetectionResults) (p c m : String) (cs : List String)
    (h : Inv r) : Inv (Fail r p c m cs) := by
  obtain ⟨hpair, hrec⟩ := h
  have hres : (Fail r p c m cs).results =
      (if r.results.any (fun rd => rd.filename == p) then
        r.results.map fun rd =>
          if rd.filename == p then
            { rd with failureList := updFailureList rd.failureList c m cs } else rd
      else (r.results.map fun rd =>
          if rd.filename == p then
            { rd with failureList := updFailureList rd.failureList c m cs } else rd) ++
        [⟨p, [⟨c, m, cs⟩], [], []⟩]) := by
    simp only [Fail, updateResultsSummary_results]
  refine ⟨?_, ?_⟩
  · rw [hres]
    exact pairwise_filenames_update r.results p _ _ (fun rd => rfl) rfl hpair
  · rw [hres]
    refine recordInv_of_mem_update r.results p _ _ _ hrec ?_ ?_
    · intro rd _ hprd
      exact ⟨uniqueCatMsg_updFailureList _ _ _ _ hprd.1, hprd.2.1, hprd.2.2⟩
    · exact ⟨List.pairwise_singleton _ _, List.Pairwise.nil, List.Pairwise.nil⟩

theorem inv_warn (r : DetectionResults) (p c m : String) (cs : List String)
    (h : Inv r) : Inv (Warn r p c m cs) := by
  obtain ⟨hpair, hrec⟩ := h
  have hres : (Warn r p c m cs).results =
      (if r.results.any (fun rd => rd.filename == p) then
        r.results.map fun rd =>
          if rd.filename == p then
            { rd with warningList := updFailureList rd.warningList c m cs } else rd
      else (r.results.map fun rd =>
          if rd.filename == p then
            { rd with warningList := updFailureList rd.warningList c m cs } else rd) ++
        [⟨p, [], [⟨c, m, cs⟩], []⟩]) := by
    simp only [Warn]
  refine ⟨?_, ?_⟩
  · rw [hres]
    exact pairwise_filenames_update r.results p _ _ (fun rd => rfl) rfl hpair
  · rw [hres]
    refine recordInv_of_mem_update r.results p _ _ _ hrec ?_ ?_
    · intro rd _ hprd
      exact ⟨hprd.1, uniqueCatMsg_updFailureList _ _ _ _ hprd.2.1, hprd.2.2⟩
    · exact ⟨List.Pairwise.nil, List.pairwise_singleton _ _, List.Pairwise.nil⟩

theorem inv_ignore (r : DetectionResults) (p c : String)
    (h : Inv r) : Inv (Ignore r p c) := by
  obtain ⟨hpair, hrec⟩ := h
  have hres : (Ignore r p c).results =
      (if r.results.any (fun rd => rd.filename == p) then
        r.results.map fun rd =>
          if rd.filename == p then
            { rd with ignoreList := updIgnoreList rd.ignoreList c } else rd
      else (r.results.map fun rd =>
          if rd.filename == p then
            { rd with ignoreList := updIgnoreList rd.ignoreList c } else rd) ++
        [⟨p, [], [], [⟨c, "", []⟩]⟩]) := by
    simp only [Ignore]
  refine ⟨?_, ?_⟩
  · rw [hres]
    exact pairwise_filenames_update r.results p _ _ (fun rd => rfl) rfl hpair
  · rw [hres]
    refine recordInv_of_mem_update r.results p _ _ _ hrec ?_ ?_
    · intro rd _ hprd
      exact ⟨hprd.1, hprd.2.1, uniqueCat_updIgnoreList _ _ hprd.2.2⟩
    · exact ⟨List.Pairwise.nil, List.Pairwise.nil, List.pairwise_singleton _ _⟩

theorem inv_applyOp (r : DetectionResults) (op : Op) (h : Inv r) : Inv (applyOp r op) := by
  cases op with
  | fail p c m cs => exact inv_fail r p c m cs h
  | warn p c m cs => exact inv_warn r p c m cs h
  | ignore p c => exact inv_ignore r p c h

theorem inv_runOps (r : DetectionResults) (ops : List Op) (h : Inv r) : Inv (runOps r ops) := by
  induction ops generalizing r with
  | nil => exact h
  | cons op rest ih => exact ih _ (inv_applyOp r op h)

/-- C6: from a fresh `DetectionResults`, every sequence of `Fail`/`Warn`/
`Ignore` calls keeps at most one record per path, keeps failures and warnings
(category, message)-unique within each record, and keeps ignores
category-unique within each record. -/
theorem uniqueness_invariant_runOps (ops : List Op) :
    Inv (runOps NewDetectionResults ops) :=
  inv_runOps NewDetectionResults ops
    ⟨List.Pairwise.nil, by intro rd hrd; cases hrd⟩

theorem report_no_failures_eq (r : DetectionResults) (fc : String) (pc : PromptContext)
    (hash : String → String) (mRC : TalismanRCIgnore → String)
    (mCfg : FileIgnoreConfig → String) (h : HasFailures r = false) :
    Report r fc pc hash mRC mCfg = ⟨fc, false, 0, []⟩ := by
  unfold Report
  rw [if_neg (by simp [h])]

theorem report_failures_eq (r : DetectionResults) (fc : String) (pc : PromptContext)
    (hash : String → String) (mRC : TalismanRCIgnore → String)
    (mCfg : FileIgnoreConfig → String) (h : HasFailures r = true) :
    Report r fc pc hash mRC mCfg =
      suggestTalismanRC hash mRC mCfg (failureIgnorePaths r) pc fc := by
  unfold Report
  rw [if_pos h]

theorem suggest_noninteractive_eq (hash : String → String) (mRC : TalismanRCIgnore → String)
    (mCfg : FileIgnoreConfig → String) (fps : List String) (pc : PromptContext) (fc : String)
    (h : pc.interactive = false) :
    suggestTalismanRC hash mRC mCfg fps pc fc =
      ⟨fc, false, 0, [mRC ⟨candidateEntriesFor hash fps⟩]⟩ := by
  unfold suggestTalismanRC
  rw [if_neg (by simp [h])]

theorem suggest_interactive_eq (hash : String → String) (mRC : TalismanRCIgnore → String)
    (mCfg : FileIgnoreConfig → String) (fps : List String) (pc : PromptContext) (fc : String)
    (h : pc.interactive = true) :
    suggestTalismanRC hash mRC mCfg fps pc fc =
      ⟨(addToTalismanIgnoreFile mRC
          (getUserConfirmation (candidateEntriesFor hash fps) pc.answers) fc).1,
        (addToTalismanIgnoreFile mRC
          (getUserConfirmation (candidateEntriesFor hash fps) pc.answers) fc).2,
        (candidateEntriesFor hash fps).length,
        (candidateEntriesFor hash fps).map mCfg⟩ := by
  unfold suggestTalismanRC
  rw [if_pos h]

/-- C3: `Report` invokes the confirmation collaborator only when there are
failures and the prompt context is interactive; with zero failures it leaves
the ignore file untouched and unopened and never confirms; in non-interactive
mode it never confirms and performs no file mutation, only printing the
candidate suppression document. -/
theorem report_confirms_only_on_interactive_failures (r : DetectionResults) (fc : String)
    (pc : PromptContext) (hash : String → String) (mRC : TalismanRCIgnore → String)
    (mCfg : FileIgnoreConfig → String) :
    (HasFailures r = false → Report r fc pc hash mRC mCfg = ⟨fc, false, 0, []⟩) ∧
    (pc.interactive = false →
      (Report r fc pc hash mRC mCfg).fileContent = fc ∧
      (Report r fc pc hash mRC mCfg).fileOpened = false ∧
      (Report r fc pc hash mRC mCfg).confirmCalls = 0 ∧
      (Report r fc pc hash mRC mCfg).stdout =
        (if HasFailures r then [mRC ⟨candidateEntriesFor hash (failureIgnorePaths r)⟩]
         else [])) ∧
    (0 < (Report r fc pc hash mRC mCfg).confirmCalls →
      HasFailures r = true ∧ pc.interactive = true) := by
  refine ⟨report_no_failures_eq r fc pc hash mRC mCfg, ?_, ?_⟩
  · intro h
    by_cases hf : HasFailures r = true
    · rw [report_failures_eq r fc pc hash mRC mCfg hf,
        suggest_noninteractive_eq hash mRC mCfg _ pc fc h, if_pos hf]
      exact ⟨rfl, rfl, rfl, rfl⟩
    · have hf' : HasFailures r = false := by revert hf; cases HasFailures r <;> simp
      rw [report_no_failures_eq r fc pc hash mRC mCfg hf', if_neg (by simp [hf'])]
      exact ⟨rfl, rfl, rfl, rfl⟩
  · intro h
    by_cases hf : HasFailures r = true
    · refine ⟨hf, ?_⟩
      by_cases hi : pc.interactive = true
      · exact hi
      · have hi' : pc.interactive = false := by revert hi; cases pc.interactive <;> simp
        rw [report_failures_eq r fc pc hash mRC mCfg hf,
          suggest_noninteractive_eq hash mRC mCfg _ pc fc hi'] at h
        exact absurd h (by simp)
    · have hf' : HasFailures r = false := by revert hf; cases HasFailures r <;> simp
      rw [report_no_failures_eq r fc pc hash mRC mCfg hf'] at h
      exact absurd h (by simp)

/-- Concrete run of the C3 theorem: with a failure recorded but a
non-interactive context, the ignore file stays untouched and the collaborator
is never asked. -/
theorem report_confirms_only_on_interactive_failures_witness :
    (Report (Fail NewDetectionResults "f" "filecontent" "m" []) "pre"
        ⟨false, fun _ => false⟩ (fun s => s) (fun _ => "DOC") (fun _ => "CFG")).fileContent =
      "pre" ∧
    (Report (Fail NewDetectionResults "f" "filecontent" "m" []) "pre"
        ⟨false, fun _ => false⟩ (fun s => s) (fun _ => "DOC") (fun _ => "CFG")).confirmCalls =
      0 := by
  have h := (report_confirms_only_on_interactive_failures
    (Fail NewDetectionResults "f" "filecontent" "m" []) "pre" ⟨false, fun _ => false⟩
    (fun s => s) (fun _ => "DOC") (fun _ => "CFG")).2.1 rfl
  exact ⟨h.1, h.2.2.1⟩

/-- C4: in interactive mode with failures, declining every entry leaves the
ignore file byte-for-byte unchanged and unopened; confirming at least one
entry appends exactly one serialized document holding all confirmed entries,
keeping the pre-existing bytes as an unmodified prefix. -/
theorem interactive_report_appends_confirmed_document (r : DetectionResults) (fc : String)
    (ans : Nat → Bool) (hash : String → String) (mRC : TalismanRCIgnore → String)
    (mCfg : FileIgnoreConfig → String) (hfail : HasFailures r = true) :
    (getUserConfirmation (candidateEntriesFor hash (failureIgnorePaths r)) ans = [] →
      Report r fc ⟨true, ans⟩ hash mRC mCfg =
        ⟨fc, false, (candidateEntriesFor hash (failureIgnorePaths r)).length,
          (candidateEntriesFor hash (failureIgnorePaths r)).map mCfg⟩) ∧
    (getUserConfirmation (candidateEntriesFor hash (failureIgnorePaths r)) ans ≠ [] →
      (Report r fc ⟨true, ans⟩ hash mRC mCfg).fileContent =
        fc ++ mRC ⟨getUserConfirmation (candidateEntriesFor hash (failureIgnorePaths r)) ans⟩ ∧
      (Report r fc ⟨true, ans⟩ hash mRC mCfg).fileOpened = true) := by
  have hrep := report_failures_eq r fc ⟨true, ans⟩ hash mRC mCfg hfail
  have hsug := suggest_interactive_eq hash mRC mCfg (failureIgnorePaths r) ⟨true, ans⟩ fc rfl
  constructor
  · intro hc
    rw [hrep, hsug, hc]
    rfl
  · intro hc
    have hadd : addToTalismanIgnoreFile mRC
        (getUserConfirmation (candidateEntriesFor hash (failureIgnorePaths r)) ans) fc =
        (fc ++ mRC ⟨getUserConfirmation (candidateEntriesFor hash (failureIgnorePaths r)) ans⟩,
          true) := by
      unfold addToTalismanIgnoreFile
      rw [if_pos (List.length_pos.mpr hc)]
    rw [hrep, hsug]
    rw [show (⟨true, ans⟩ : PromptContext).answers = ans from rfl, hadd]
    exact ⟨rfl, rfl⟩

/-- Concrete run of the C4 theorem: confirming the single candidate entry
appends the serialized document after the pre-existing bytes. -/
theorem interactive_report_appends_confirmed_document_witness :
    (Report (Fail NewDetectionResults "f" "filecontent" "m" []) "pre"
        ⟨true, fun _ => true⟩ (fun s => s) (fun _ => "DOC") (fun _ => "CFG")).fileContent =
      "preDOC" ∧
    (Report (Fail NewDetectionResults "f" "filecontent" "m" []) "pre"
        ⟨true, fun _ => true⟩ (fun s => s) (fun _ => "DOC") (fun _ => "CFG")).fileOpened =
      true := by
  have h := (interactive_report_appends_confirmed_document
    (Fail NewDetectionResults "f" "filecontent" "m" []) "pre" (fun _ => true)
    (fun s => s) (fun _ => "DOC") (fun _ => "CFG") (by decide)).2 (by decide)
  refine ⟨?_, h.2⟩
  rw [h.1]
  decide

set_option maxRecDepth 10000 in
set_option exponentiation.threshold 4000 in
/-- C9: the spec-modelled content detector yields zero findings on the content
prettySafe, and on the AWS-style secret key content it yields exactly one
filecontent finding on the addition's path with exactly the mandated base64
message. -/
theorem content_detector_scenarios :
    fileContentDetections "prettySafe" = [] ∧
    GetFailures (runContentDetector "filename"
        "wJalrXUtnFEMI/K7MDENG/bPxRfiCYEXAMPLEKEY" NewDetectionResults) "filename" =
      [⟨"filecontent",
        "Expected file to not to contain base64 encoded texts such as: wJalrXUtnFEMI/K7MDENG/bPxRfiCYEXAMPLEKEY",
        []⟩] := by
  constructor <;> decide

end Talisman
